import Mathlib

/-!
# Verification of `evaler/inverse_eval.py`

A shallow embedding of the resolution-matrix analysis code of the `evaler`
repository (file `evaler/inverse_eval.py`) together with proofs about it.
Numpy float arrays are modelled as matrices/lists over `ℚ` (rational
arithmetic; note that Lean's total division returns 0 on division by zero,
which is flagged at each place where it matters), except for the
centre-of-gravity computations, which need `Real.sqrt` and are modelled
over `ℝ`.  Line numbers refer to `src/evaler/inverse_eval.py`.
-/

namespace Evaler

/-- Square rational matrices, the model of the numpy resolution matrices. -/
abbrev Mat (n : ℕ) : Type := Matrix (Fin n) (Fin n) ℚ

/-- `np.max(R_std[:,d])` (line 225): the maximal entry of column `j` of `R`.
The fold over the full column starts from entry `R 0 j`, which is itself a
column entry, so the result is the maximum of the column. -/
def colMax {n : ℕ} (R : Mat (n + 1)) (j : Fin (n + 1)) : ℚ :=
  ((List.finRange (n + 1)).map (fun i => R i j)).foldr max (R 0 j)

/-- The `arg == 'max'` branch of `standardize_columns` (line 225): every
column divided by its maximal value.  The loop divides column `d` of the
copy in place, but the divisor `np.max(R_std[:,d])` is read from column `d`
before that column is written, and earlier iterations only modified earlier
columns, so each divisor is taken from the original matrix. -/
def stdColsMax {n : ℕ} (R : Mat (n + 1)) : Mat (n + 1) :=
  fun i j => R i j / colMax R j

/-- The `arg == 'diag'` branch of `standardize_columns` (lines 222-223):
every column divided by its diagonal value, which likewise is read from the
not-yet-modified column `d` of the copy. -/
def stdColsDiag {n : ℕ} (R : Mat (n + 1)) : Mat (n + 1) :=
  fun i j => R i j / R j j

/-- `standardize_columns` (lines 199-226).  A `ValueError` (modelled as the
`Except.error` case carrying the message) is raised iff `arg` is neither
`"diag"` nor `"max"` (lines 217-218); otherwise the standardized copy is
returned. -/
def standardize_columns {n : ℕ} (R : Mat (n + 1)) (arg : String) :
    Except String (Mat (n + 1)) :=
  if arg ∉ ["diag", "max"] then
    .error "arg must be either \"diag\" or \"max\". Breaking."
  else if arg = "diag" then .ok (stdColsDiag R) else .ok (stdColsMax R)

/-- A call of `standardize_columns` observed together with the state of the
caller's array `R` after the call: the function copies `R` (line 219,
`R_std = R.copy()`) and mutates only the copy, so the post-call state of the
argument array is `R` itself, whether or not the `ValueError` was raised. -/
def standardize_columns_call {n : ℕ} (R : Mat (n + 1)) (arg : String) :
    Except String (Mat (n + 1)) × Mat (n + 1) :=
  (standardize_columns R arg, R)

/-- The sentinel value written onto the diagonal by `remove_diagonal`
(line 580). -/
def sentinel : ℚ := 9999999999999999

/-- `np.fill_diagonal(A_off_diagonal, 9999999999999999)` applied to a copy
of `A` (lines 579-580). -/
def fillDiagonal {n : ℕ} (A : Mat n) : Mat n :=
  fun i j => if i = j then sentinel else A i j

/-- Cut a list into consecutive chunks of the given sizes; models the numpy
`reshape` of a flat selection into rows (line 582). -/
def takeChunks {α : Type*} : List ℕ → List α → List (List α)
  | [], _ => []
  | s :: ss, xs => xs.take s :: takeChunks ss (xs.drop s)

/-- `remove_diagonal` (lines 574-582).  The boolean selection
`A_off_diagonal.T[np.where(~bool_ind)]` walks `A_off_diagonal.T` in row-major
order, i.e. column by column of `A_off_diagonal`, keeping the entries that
differ from the sentinel; `reshape(n, n-1).T` then regroups the flat list
into the `n` columns of the final `(n-1, n)` array.  The result is
represented column-major: the list of the `n` columns. -/
def remove_diagonal {n : ℕ} (A : Mat n) : List (List ℚ) :=
  takeChunks (List.replicate n (n - 1))
    ((List.finRange n).flatMap
      (fun j => ((List.finRange n).map (fun i => fillDiagonal A i j)).filter
        (fun q => q ≠ sentinel)))

theorem takeChunks_flatten {α : Type*} (s : ℕ) :
    ∀ ls : List (List α), (∀ l ∈ ls, l.length = s) →
      takeChunks (List.replicate ls.length s) ls.flatten = ls := by
  intro ls
  induction ls with
  | nil => intro _; rfl
  | cons l rest ih =>
    intro h
    have hl : l.length = s := h l (by simp)
    have t1 : (l ++ rest.flatten).take s = l := by
      rw [← hl]; exact List.take_left l rest.flatten
    have t2 : (l ++ rest.flatten).drop s = rest.flatten := by
      rw [← hl]; exact List.drop_left l rest.flatten
    simp only [List.length_cons, List.replicate_succ, List.flatten_cons, takeChunks]
    rw [t1, t2]
    exact congrArg _ (ih fun x hx => h x (by simp [hx]))

theorem filtered_column_eq {n : ℕ} (A : Mat (n + 1)) (j : Fin (n + 1))
    (h : ∀ i, A i j ≠ sentinel) :
    ((List.finRange (n + 1)).map (fun i => fillDiagonal A i j)).filter
        (fun q => q ≠ sentinel) =
      ((List.finRange (n + 1)).filter (fun i => i ≠ j)).map (fun i => A i j) := by
  rw [List.filter_map]
  have hfil : (List.finRange (n + 1)).filter
      ((fun q => decide (q ≠ sentinel)) ∘ fun i => fillDiagonal A i j) =
      (List.finRange (n + 1)).filter (fun i => i ≠ j) := by
    apply List.filter_congr
    intro i _
    by_cases hij : i = j
    · simp [Function.comp, fillDiagonal, hij]
    · simp [Function.comp, fillDiagonal, hij, h i]
  rw [hfil]
  apply List.map_congr_left
  intro i hi
  have : i ≠ j := by simpa using (List.mem_filter.mp hi).2
  simp [fillDiagonal, this]

theorem filter_ne_length {n : ℕ} (j : Fin (n + 1)) :
    ((List.finRange (n + 1)).filter (fun i => i ≠ j)).length = n := by
  have hnd := List.nodup_finRange (n + 1)
  have herase := hnd.erase_eq_filter j
  have hlen : ((List.finRange (n + 1)).erase j).length = n := by
    rw [List.length_erase_of_mem (List.mem_finRange j), List.length_finRange]
    omega
  have hfun : (List.finRange (n + 1)).filter (fun x => x != j) =
      (List.finRange (n + 1)).filter (fun i => i ≠ j) := by
    apply List.filter_congr
    intro i _
    by_cases hij : i = j <;> simp [hij]
  rw [← hfun, ← herase]
  exact hlen

/-- C9: For every square matrix `A` (of size `n+1 ≥ 1`) none of whose
entries equals the sentinel `9999999999999999`, `remove_diagonal A` is the
`n × (n+1)` array whose column `j` is column `j` of `A` with the diagonal
entry `A j j` removed and the other entries kept in order.  (The input is
not modified: the function works on `A.copy()`, line 579, and the embedding
is a pure function of `A`.) -/
theorem remove_diagonal_eq {n : ℕ} (A : Mat (n + 1))
    (h : ∀ i j, A i j ≠ sentinel) :
    remove_diagonal A =
      (List.finRange (n + 1)).map
        (fun j => ((List.finRange (n + 1)).filter (fun i => i ≠ j)).map
          (fun i => A i j)) := by
  unfold remove_diagonal
  have hflat : (List.finRange (n + 1)).flatMap
      (fun j => ((List.finRange (n + 1)).map (fun i => fillDiagonal A i j)).filter
        (fun q => q ≠ sentinel)) =
      ((List.finRange (n + 1)).map
        (fun j => ((List.finRange (n + 1)).filter (fun i => i ≠ j)).map
          (fun i => A i j))).flatten := by
    rw [List.flatMap_def]
    congr 1
    apply List.map_congr_left
    intro j _
    exact filtered_column_eq A j (fun i => h i j)
  rw [hflat]
  have hrepl : List.replicate (n + 1) n =
      List.replicate ((List.finRange (n + 1)).map
        (fun j => ((List.finRange (n + 1)).filter (fun i => i ≠ j)).map
          (fun i => A i j))).length n := by
    simp
  rw [show n + 1 - 1 = n from rfl, hrepl]
  apply takeChunks_flatten
  intro l hl
  rcases List.mem_map.mp hl with ⟨j, _, rfl⟩
  rw [List.length_map]
  exact filter_ne_length j

theorem c9_remove_diagonal {n : ℕ} (A : Mat (n + 1))
    (h : ∀ i j, A i j ≠ sentinel) :
    (remove_diagonal A).length = n + 1 ∧
      ∀ j : Fin (n + 1), (remove_diagonal A).getD j [] =
        ((List.finRange (n + 1)).filter (fun i => i ≠ j)).map (fun i => A i j) := by
  have hcols := remove_diagonal_eq A h
  constructor
  · rw [hcols, List.length_map, List.length_finRange]
  · intro j
    rw [hcols]
    have hj : (j : ℕ) < ((List.finRange (n + 1)).map
        (fun j => ((List.finRange (n + 1)).filter (fun i => i ≠ j)).map
          (fun i => A i j))).length := by
      simp [j.isLt]
    rw [List.getD_eq_getElem _ _ hj, List.getElem_map, List.getElem_finRange]
    simp

/-- Witness for C9 at the concrete matrix `[[1, 2], [3, 4]]`. -/
theorem c9_witness :
    (∀ i j, (!![(1 : ℚ), 2; 3, 4] : Mat 2) i j ≠ sentinel) ∧
      ((remove_diagonal (!![(1 : ℚ), 2; 3, 4] : Mat 2)).length = 2 ∧
        ∀ j : Fin 2,
          (remove_diagonal (!![(1 : ℚ), 2; 3, 4] : Mat 2)).getD j [] =
            ((List.finRange 2).filter (fun i => i ≠ j)).map
              (fun i => (!![(1 : ℚ), 2; 3, 4] : Mat 2) i j)) :=
  ⟨by simp [sentinel, Fin.forall_fin_two], c9_remove_diagonal _
    (by simp [sentinel, Fin.forall_fin_two])⟩

/-- C8: `standardize_columns(R, arg)` raises `ValueError` iff `arg` is
neither `"diag"` nor `"max"`; the caller's matrix is unchanged in every
case, since only the copy is written; on success, `"max"` divides each
column of `R` by the column's maximum and `"diag"` by its diagonal entry. -/
theorem c8_standardize_columns {n : ℕ} (R : Mat (n + 1)) (arg : String) :
    ((∃ e, standardize_columns R arg = .error e) ↔ ¬(arg = "diag" ∨ arg = "max")) ∧
      (standardize_columns_call R arg).2 = R ∧
      standardize_columns R "max" = .ok (fun i j => R i j / colMax R j) ∧
      standardize_columns R "diag" = .ok (fun i j => R i j / R j j) := by
  refine ⟨?_, rfl, by simp [standardize_columns]; rfl,
    by simp [standardize_columns]; rfl⟩
  unfold standardize_columns
  by_cases h : arg = "diag" ∨ arg = "max"
  · rcases h with h | h <;> subst h <;> simp
  · have h1 : arg ≠ "diag" := fun hc => h (Or.inl hc)
    have h2 : arg ≠ "max" := fun hc => h (Or.inr hc)
    simp [h1, h2]

/-- Maximal entry of row `i` of `R`, the row-wise analogue of `colMax`. -/
def rowMax {n : ℕ} (R : Mat (n + 1)) (i : Fin (n + 1)) : ℚ :=
  ((List.finRange (n + 1)).map (fun j => R i j)).foldr max (R i 0)

/-- Modelled from the spec: `standardize_rows`, called by
`get_average_cross_talk_map` (line 597), has no definition in `src` (only
this caller is there).  Following the spec's "the median of the i-th row of
the row-standardized resolution matrix" and the documentation of
`resolution_map` (cross-talk standardized "with respect to the maximal
value in each ... row"), it is modelled as the row-wise analogue of
`standardize_columns(..., 'max')`: each row divided by its maximal value. -/
def standardize_rows {n : ℕ} (R : Mat (n + 1)) : Mat (n + 1) :=
  fun i j => R i j / rowMax R i

/-- `np.median` of a list of rationals: after sorting ascendingly, the
middle element (odd length) or the mean of the two middle elements (even
length). -/
def npMedian (l : List ℚ) : ℚ :=
  let s := l.mergeSort (fun a b => a ≤ b)
  if l.length % 2 = 1 then s.getD (l.length / 2) 0
  else (s.getD (l.length / 2 - 1) 0 + s.getD (l.length / 2) 0) / 2

/-- `get_average_cross_talk_map` (lines 585-599): standardize rows, then
`np.median(R, axis=1)`, the median of each row. -/
def get_average_cross_talk_map {n : ℕ} (R : Mat (n + 1)) : Fin (n + 1) → ℚ :=
  fun i => npMedian ((List.finRange (n + 1)).map (fun j => standardize_rows R i j))

/-- C3: entry `i` of `get_average_cross_talk_map R` is the median of row `i`
of the row-standardized resolution matrix: there is an ascendingly sorted
rearrangement `p` of that row, and the entry is the middle element of `p`
(odd row length) resp. the mean of its two middle elements (even length). -/
theorem c3_get_average_cross_talk_map {n : ℕ} (R : Mat (n + 1)) (i : Fin (n + 1)) :
    ∃ p : List ℚ,
      p.Perm ((List.finRange (n + 1)).map (fun j => standardize_rows R i j)) ∧
      p.Sorted (· ≤ ·) ∧
      get_average_cross_talk_map R i =
        (if (n + 1) % 2 = 1 then p.getD ((n + 1) / 2) 0
         else (p.getD ((n + 1) / 2 - 1) 0 + p.getD ((n + 1) / 2) 0) / 2) := by
  refine ⟨((List.finRange (n + 1)).map (fun j => standardize_rows R i j)).mergeSort
    (fun a b => a ≤ b), List.mergeSort_perm _ _, ?_, ?_⟩
  · have := @List.sorted_mergeSort ℚ (fun a b : ℚ => decide (a ≤ b))
      (fun a b c hab hbc => by
        simp only [decide_eq_true_eq] at *; exact le_trans hab hbc)
      (fun a b => by simpa using le_total a b)
      ((List.finRange (n + 1)).map (fun j => standardize_rows R i j))
    unfold List.Sorted
    exact List.Pairwise.imp (by simp) this
  · unfold get_average_cross_talk_map npMedian
    simp

/-- `n_T` (line 1116): the number of thresholds swept by `get_roc`. -/
def n_T : ℕ := 100

/-- `np.linspace(-0.01, 1.01, 100)[c]` (line 1124): 100 evenly spaced
thresholds from -0.01 to 1.01; the step is 1.02/99 = 17/1650. -/
def rocThreshold (c : ℕ) : ℚ := -1/100 + c * (17/1650)

/-- `true_estimates = np.diag(R_max)` (line 1119). -/
def trueEstimates {n : ℕ} (R : Mat (n + 1)) : Fin (n + 1) → ℚ :=
  fun i => stdColsMax R i i

/-- The entries of `R_max_off_diagonals = remove_diagonal(R_max)`
(line 1120) as one flat list; `np.sum` of an entrywise comparison of the
`(n, n+1)` array counts over exactly this list. -/
def offDiagonals {n : ℕ} (R : Mat (n + 1)) : List ℚ :=
  (remove_diagonal (stdColsMax R)).flatten

/-- `TP = np.sum(true_estimates > T)` (line 1125). -/
def rocTP {n : ℕ} (R : Mat (n + 1)) (c : ℕ) : ℕ :=
  (List.finRange (n + 1)).countP (fun i => rocThreshold c < trueEstimates R i)

/-- `FN = len(true_estimates) - TP` (line 1126). -/
def rocFN {n : ℕ} (R : Mat (n + 1)) (c : ℕ) : ℕ := (n + 1) - rocTP R c

/-- `TN = np.sum(R_max_off_diagonals <= T)` (line 1127). -/
def rocTN {n : ℕ} (R : Mat (n + 1)) (c : ℕ) : ℕ :=
  (offDiagonals R).countP (fun q => q ≤ rocThreshold c)

/-- `FP = np.sum(R_max_off_diagonals >= T)` (line 1128). -/
def rocFP {n : ℕ} (R : Mat (n + 1)) (c : ℕ) : ℕ :=
  (offDiagonals R).countP (fun q => rocThreshold c ≤ q)

/-- `FPR = FP/(FP+TN)` (line 1130).  Division is total rational division
(numpy would give `nan` for 0/0, which cannot occur for `n + 1 ≥ 2`). -/
def rocFPR {n : ℕ} (R : Mat (n + 1)) (c : ℕ) : ℚ :=
  (rocFP R c : ℚ) / ((rocFP R c : ℚ) + (rocTN R c : ℚ))

/-- `TPR = TP/(TP+FN)` (line 1129). -/
def rocTPR {n : ℕ} (R : Mat (n + 1)) (c : ℕ) : ℚ :=
  (rocTP R c : ℚ) / ((rocTP R c : ℚ) + (rocFN R c : ℚ))

/-- Entry `(r, c)` of the `ROC` array (lines 1117, 1131-1132):
`np.zeros((2, n_T+3))`, with columns `c < n_T` filled by the threshold sweep
and the remaining columns left at zero. -/
def rocEntry {n : ℕ} (R : Mat (n + 1)) (r c : ℕ) : ℚ :=
  if c < n_T then (if r = 0 then rocFPR R c else if r = 1 then rocTPR R c else 0)
  else 0

/-- The returned `ROC` array with its numpy shape `(2, 103)`. -/
def rocROC {n : ℕ} (R : Mat (n + 1)) : Matrix (Fin 2) (Fin (n_T + 3)) ℚ :=
  fun r c => rocEntry R (r : ℕ) (c : ℕ)

/-- C10: the `ROC` array returned by `get_roc` has shape `(2, 103)`
(`rocROC` is a `2 × (n_T + 3)` matrix with `n_T = 100`), and since the
threshold sweep fills only columns `c < 100`, its last three columns are
`(0, 0)`. -/
theorem c10_roc_last_columns {n : ℕ} (R : Mat (n + 1)) :
    n_T + 3 = 103 ∧
    (∀ r : Fin 2, ∀ c : Fin (n_T + 3), rocROC R r c = rocEntry R (r : ℕ) (c : ℕ)) ∧
    (∀ r : ℕ, rocEntry R r 100 = 0 ∧ rocEntry R r 101 = 0 ∧ rocEntry R r 102 = 0) := by
  refine ⟨rfl, fun r c => rfl, fun r => ?_⟩
  refine ⟨?_, ?_, ?_⟩ <;> simp [rocEntry, n_T]

/-- The three channel modalities over which `get_R` balances the SNR
(line 449, dictionary keys in insertion order `mag`, `grad`, `eeg`). -/
inductive Modality : Type
  | mag : Modality
  | grad : Modality
  | eeg : Modality
deriving DecidableEq

/-- `list(mod_ind.keys())` (lines 449-454): the modalities in dictionary
order. -/
def modalities : List Modality := [Modality.mag, Modality.grad, Modality.eeg]

/-- `np.mean` of a list of rationals. -/
def listMean (l : List ℚ) : ℚ := l.sum / l.length

/-- `snrs = [sign_pow[key] / noise_power[key] for key in list(mod_ind.keys())]`
(line 476).  `sign_pow key` and `noise_power key` stand for the per-modality
aggregates computed on lines 448-455 and 466-475: the average
forward-projected signal power resp. the noise power of the modality. -/
def snrsOf (sign_pow noise_power : Modality → ℚ) : List ℚ :=
  modalities.map (fun key => sign_pow key / noise_power key)

/-- The SNR actually used by `get_R`: `if compute_analytical: SNR = np.inf`
(lines 423-424).  `np.inf` is modelled as `none`. -/
def snrUsed (compute_analytical : Bool) (SNR : ℚ) : Option ℚ :=
  if compute_analytical then none else some SNR

/-- `ave_scale = SNR / np.mean(snrs)` (line 477).  Division of `np.inf` by
the finite mean is again `np.inf` (`none`); this models the numpy float
semantics faithfully when the mean of the modality SNRs is nonnegative,
which holds for the powers computed by the code (means of absolute
values). -/
def aveScale (compute_analytical : Bool) (SNR : ℚ)
    (sign_pow noise_power : Modality → ℚ) : Option ℚ :=
  (snrUsed compute_analytical SNR).map (· / listMean (snrsOf sign_pow noise_power))

/-- Sensor data of one activated label (lines 502-507): `scaling == np.inf`
selects the noise-free signal, otherwise `sens = scaling * signal + noise`.
`ι` indexes the (channel, time) grid of the evoked data. -/
def sensOf {ι : Type} (scaling : Option ℚ) (signal noise : ι → ℚ) : ι → ℚ :=
  match scaling with
  | none => signal
  | some s => fun t => s * signal t + noise t

/-- The regularization parameter: `lambda2 = 1./9.` is assigned exactly in
the `scaling == np.inf` branch (line 505), and is used later only in the
`compute_analytical` path. -/
def lambda2Of (scaling : Option ℚ) : Option ℚ :=
  if scaling.isNone then some (1/9) else none

/-- C5: in `get_R` every activation label `c` gets the same scaling factor
`ave_scale = SNR / mean(sign_pow/noise_power over mag, grad, eeg)`, and the
simulated sensor data is `ave_scale * signal_c + noise`; when
`compute_analytical` is true, `SNR` is set to infinity, the sensor data is
the noise-free signal and `lambda2 = 1/9`.  The hypothesis `hmean` records
the nonnegativity of the mean modality SNR, under which the `none`-as-`inf`
modelling of `ave_scale` agrees with the numpy float arithmetic. -/
theorem c5_get_R_scaling {ι : Type} {m : ℕ}
    (sign_pow noise_power : Modality → ℚ) (SNR : ℚ)
    (signal : Fin m → ι → ℚ) (noise : ι → ℚ)
    (hmean : 0 ≤ listMean (snrsOf sign_pow noise_power)) :
    (aveScale false SNR sign_pow noise_power =
      some (SNR / ((sign_pow Modality.mag / noise_power Modality.mag +
        sign_pow Modality.grad / noise_power Modality.grad +
        sign_pow Modality.eeg / noise_power Modality.eeg) / 3)) ∧
     ∀ c : Fin m,
       sensOf (aveScale false SNR sign_pow noise_power) (signal c) noise =
         fun t => (SNR / ((sign_pow Modality.mag / noise_power Modality.mag +
           sign_pow Modality.grad / noise_power Modality.grad +
           sign_pow Modality.eeg / noise_power Modality.eeg) / 3)) *
             signal c t + noise t) ∧
    (snrUsed true SNR = none ∧
     (∀ c : Fin m,
       sensOf (aveScale true SNR sign_pow noise_power) (signal c) noise =
         signal c) ∧
     lambda2Of (aveScale true SNR sign_pow noise_power) = some (1/9)) := by
  have hmean3 : listMean (snrsOf sign_pow noise_power) =
      (sign_pow Modality.mag / noise_power Modality.mag +
        sign_pow Modality.grad / noise_power Modality.grad +
        sign_pow Modality.eeg / noise_power Modality.eeg) / 3 := by
    unfold listMean snrsOf modalities
    norm_num
    ring
  refine ⟨⟨?_, ?_⟩, rfl, fun c => rfl, rfl⟩
  · unfold aveScale snrUsed
    rw [hmean3]
    rfl
  · intro c
    unfold aveScale snrUsed
    rw [hmean3]
    rfl

/-- Witness for C5 at concrete powers and signals. -/
theorem c5_witness :
    (0 ≤ listMean (snrsOf (fun _ => (1 : ℚ)) (fun _ => (1 : ℚ)))) ∧
    ((aveScale false 2 (fun _ => (1 : ℚ)) (fun _ => (1 : ℚ)) =
        some ((2 : ℚ) / ((1/1 + 1/1 + 1/1) / 3)) ∧
      ∀ c : Fin 1,
        sensOf (aveScale false 2 (fun _ => (1 : ℚ)) (fun _ => (1 : ℚ)))
            ((fun _ _ => (3 : ℚ)) c) (fun _ : Fin 1 => (5 : ℚ)) =
          fun t => ((2 : ℚ) / ((1/1 + 1/1 + 1/1) / 3)) *
            (fun _ _ => (3 : ℚ)) c t + (fun _ : Fin 1 => (5 : ℚ)) t) ∧
     (snrUsed true (2 : ℚ) = none ∧
      (∀ c : Fin 1,
        sensOf (aveScale true 2 (fun _ => (1 : ℚ)) (fun _ => (1 : ℚ)))
            ((fun _ _ => (3 : ℚ)) c) (fun _ : Fin 1 => (5 : ℚ)) =
          (fun _ _ => (3 : ℚ)) c) ∧
      lambda2Of (aveScale true 2 (fun _ => (1 : ℚ)) (fun _ => (1 : ℚ))) =
        some (1/9))) :=
  ⟨by norm_num [listMean, snrsOf, modalities],
   c5_get_R_scaling _ _ 2 _ _
     (by norm_num [listMean, snrsOf, modalities])⟩

/-- The linear minimum-norm methods for which `get_R` constructs an inverse
operator (line 459). -/
def linear_methods : List String := ["MNE", "dSPM", "eLORETA", "sLORETA"]

/-- `inverse_operator` as set up on lines 458-463: the constructed
minimum-norm operator (abstracted as `mk`) for the linear methods, `None`
otherwise. -/
def inverseOperatorOf {Op : Type} (invmethod : String) (mk : Op) : Option Op :=
  if invmethod ∈ linear_methods then some mk else none

/-- The per-label estimation step dispatched on `invmethod`
(lines 519-540): either `mne.inverse_sparse.mixed_norm` on the simulated
evoked data, or the user-supplied `inv_function` called with the
`inverse_operator` argument. -/
inductive EstimatorCall (Op : Type) : Type
  | mixedNorm : EstimatorCall Op
  | invFunction : Option Op → EstimatorCall Op
deriving DecidableEq

/-- The branch taken in the activation loop (line 519: `if invmethod ==
'mixed_norm'`, line 540 otherwise). -/
def estimatorCall {Op : Type} (invmethod : String) (op : Option Op) :
    EstimatorCall Op :=
  if invmethod = "mixed_norm" then EstimatorCall.mixedNorm
  else EstimatorCall.invFunction op

/-- The full dispatch of `get_R` for a given method string. -/
def getREstimatorCall {Op : Type} (invmethod : String) (mk : Op) :
    EstimatorCall Op :=
  estimatorCall invmethod (inverseOperatorOf invmethod mk)

/-- C6: a minimum-norm inverse operator is constructed iff `invmethod` is
one of MNE, dSPM, eLORETA, sLORETA; `mixed_norm` dispatches to the
mixed-norm sparse estimator; every other method string reaches the
user-supplied `inv_function` with `inverse_operator = None`. -/
theorem c6_get_R_dispatch {Op : Type} (mk : Op) (m : String) :
    ((inverseOperatorOf m mk).isSome = true ↔ m ∈ linear_methods) ∧
    getREstimatorCall "mixed_norm" mk = EstimatorCall.mixedNorm ∧
    (m ∉ linear_methods → m ≠ "mixed_norm" →
      getREstimatorCall m mk = EstimatorCall.invFunction none) := by
  refine ⟨?_, ?_, ?_⟩
  · unfold inverseOperatorOf
    by_cases h : m ∈ linear_methods <;> simp [h]
  · unfold getREstimatorCall estimatorCall
    simp
  · intro h1 h2
    unfold getREstimatorCall estimatorCall inverseOperatorOf
    simp [h1, h2]

/-- Witness for C6 at the method string "beamformer". -/
theorem c6_witness :
    ("beamformer" ∉ linear_methods ∧ "beamformer" ≠ "mixed_norm") ∧
    getREstimatorCall "beamformer" () = EstimatorCall.invFunction none := by
  have h1 : "beamformer" ∉ linear_methods := by simp [linear_methods]
  have h2 : "beamformer" ≠ "mixed_norm" := by simp
  exact ⟨⟨h1, h2⟩, (c6_get_R_dispatch () "beamformer").2.2 h1 h2⟩

/-! ## `get_label_center` and `get_center_of_gravity_error` (C7)

These work on Euclidean distances of positions in the source space and are
modelled over `ℝ` (the distances need `Real.sqrt`).  Each label is
represented by the list of the 3-d positions of its vertices; the lookup of
`src[hemi]['rr']` rows through the label's vertex numbers (lines 825-830)
is the data plumbing that produces exactly this list. -/

/-- A 3-d position, one row of the `rr` position array. -/
abbrev Vec3 : Type := Fin 3 → ℝ

/-- `np.mean(rr[verts,:], axis=0)` (lines 828-830): componentwise mean of a
list of positions. -/
noncomputable def vecMean (l : List Vec3) : Vec3 :=
  fun k => (l.map (fun v => v k)).sum / l.length

/-- `get_label_center` (lines 808-834): centre of gravity of the vertex
positions of each label. -/
noncomputable def get_label_center {nLab : ℕ} (labels : Fin nLab → List Vec3) :
    Fin nLab → Vec3 :=
  fun l => vecMean (labels l)

/-- `np.linalg.norm` of a 3-vector: the Euclidean norm. -/
noncomputable def vecNorm (v : Vec3) : ℝ := Real.sqrt (∑ k, v k ^ 2)

/-- `np.argmin`: index of the first minimal element of a list (0 for the
empty list). -/
noncomputable def argminIdx : List ℝ → ℕ
  | [] => 0
  | x :: xs => if ∀ y ∈ xs, x ≤ y then 0 else argminIdx xs + 1

/-- `center_of_gravity = np.dot(col, label_center)/np.sum(col)` (line 865)
for column `c` of `R`. -/
noncomputable def weightedCog {nLab : ℕ} (R : Matrix (Fin nLab) (Fin nLab) ℝ)
    (labels : Fin nLab → List Vec3) (c : Fin nLab) : Vec3 :=
  fun k => (∑ i, R i c * get_label_center labels i k) / (∑ i, R i c)

/-- `get_center_of_gravity_error` (lines 837-872): per column the scaled
error `100 * np.linalg.norm(label_center[c] - center_of_gravity)`, the
centre-of-gravity list, and `np.argmin` of the distances from the centre of
gravity to all label centres. -/
noncomputable def get_center_of_gravity_error {nLab : ℕ}
    (R : Matrix (Fin nLab) (Fin nLab) ℝ) (labels : Fin nLab → List Vec3) :
    (Fin nLab → ℝ) × (Fin nLab → Vec3) × (Fin nLab → ℕ) :=
  ( fun c => 100 * vecNorm (fun k =>
      get_label_center labels c k - weightedCog R labels c k)
  , fun c => weightedCog R labels c
  , fun c => argminIdx ((List.finRange nLab).map
      (fun j => vecNorm (fun k =>
        weightedCog R labels c k - get_label_center labels j k))) )

theorem argminIdx_spec (l : List ℝ) (hne : l ≠ []) :
    argminIdx l < l.length ∧
      ∀ i, i < l.length → l.getD (argminIdx l) 0 ≤ l.getD i 0 := by
  induction l with
  | nil => exact absurd rfl hne
  | cons x xs ih =>
    have heq : argminIdx (x :: xs) =
        if ∀ y ∈ xs, x ≤ y then 0 else argminIdx xs + 1 := rfl
    by_cases hall : ∀ y ∈ xs, x ≤ y
    · rw [heq, if_pos hall]
      refine ⟨by simp, ?_⟩
      intro i hi
      match i with
      | 0 => simp
      | j + 1 =>
        have hj : j < xs.length := by simpa using hi
        have hmem : xs.getD j 0 ∈ xs := by
          rw [List.getD_eq_getElem _ _ hj]
          exact List.getElem_mem hj
        simpa using hall _ hmem
    · have hxs : xs ≠ [] := by
        intro hnil
        exact hall (by simp [hnil])
      obtain ⟨hlt, hmin⟩ := ih hxs
      rw [heq, if_neg hall]
      refine ⟨by simpa using Nat.succ_lt_succ hlt, ?_⟩
      intro i hi
      match i with
      | 0 =>
        push_neg at hall
        obtain ⟨y, hy, hyx⟩ := hall
        obtain ⟨iy, hiy, rfl⟩ := List.mem_iff_getElem.mp hy
        have := hmin iy hiy
        rw [List.getD_eq_getElem _ _ hiy] at this
        simpa using le_trans this (le_of_lt hyx)
      | j + 1 =>
        have hj : j < xs.length := by simpa using hi
        simpa using hmin j hj

/-- C7: for a resolution matrix whose columns have nonzero sums,
`get_center_of_gravity_error` returns per column `c`: 100 times the
Euclidean distance between the centre of gravity of label `c`'s vertex
positions and the weighted centre of gravity
`(R[:,c] ⬝ label_center) / sum(R[:,c])`; the list of the weighted centres of
gravity; and for each of them the index of a closest label centre. -/
theorem c7_get_center_of_gravity_error {nLab : ℕ}
    (R : Matrix (Fin (nLab + 1)) (Fin (nLab + 1)) ℝ)
    (labels : Fin (nLab + 1) → List Vec3)
    (hsum : ∀ c, (∑ i, R i c) ≠ 0) :
    (∀ c, (get_center_of_gravity_error R labels).1 c =
      100 * vecNorm (fun k => get_label_center labels c k -
        (∑ i, R i c * get_label_center labels i k) / (∑ i, R i c))) ∧
    (∀ c, (get_center_of_gravity_error R labels).2.1 c = fun k =>
      (∑ i, R i c * get_label_center labels i k) / (∑ i, R i c)) ∧
    (∀ c, ∃ jmin : Fin (nLab + 1),
      (get_center_of_gravity_error R labels).2.2 c = (jmin : ℕ) ∧
      ∀ j : Fin (nLab + 1),
        vecNorm (fun k => weightedCog R labels c k -
          get_label_center labels jmin k) ≤
        vecNorm (fun k => weightedCog R labels c k -
          get_label_center labels j k)) := by
  refine ⟨fun c => rfl, fun c => rfl, fun c => ?_⟩
  set dl := (List.finRange (nLab + 1)).map
    (fun j => vecNorm (fun k =>
      weightedCog R labels c k - get_label_center labels j k)) with hdl
  have hlen : dl.length = nLab + 1 := by simp [hdl]
  have hne : dl ≠ [] := by
    intro h0
    rw [h0] at hlen
    simp at hlen
  obtain ⟨hlt, hmin⟩ := argminIdx_spec dl hne
  rw [hlen] at hlt
  refine ⟨⟨argminIdx dl, hlt⟩, rfl, ?_⟩
  intro j
  have hgd : ∀ i : Fin (nLab + 1), dl.getD (i : ℕ) 0 =
      vecNorm (fun k => weightedCog R labels c k - get_label_center labels i k) := by
    intro i
    have hi : (i : ℕ) < dl.length := by rw [hlen]; exact i.isLt
    rw [List.getD_eq_getElem _ _ hi]
    simp [hdl]
  have h1 := hmin (j : ℕ) (by rw [hlen]; exact j.isLt)
  rw [hgd j] at h1
  have h2 := hgd ⟨argminIdx dl, hlt⟩
  simp only at h2
  rw [h2] at h1
  exact h1

/-- Concrete 1 × 1 resolution matrix used by the C7 witness. -/
def cogR : Matrix (Fin 1) (Fin 1) ℝ := fun _ _ => 1

/-- Concrete single label (one vertex at the origin) used by the C7
witness. -/
def cogLabels : Fin 1 → List Vec3 := fun _ => [fun _ => 0]

/-- Witness for C7: one label with a single vertex at the origin and the
1 × 1 resolution matrix `[[1]]`. -/
theorem c7_witness :
    (∀ c : Fin 1, (∑ i, cogR i c) ≠ 0) ∧
    ((∀ c, (get_center_of_gravity_error cogR cogLabels).1 c =
      100 * vecNorm (fun k => get_label_center cogLabels c k -
        (∑ i, cogR i c * get_label_center cogLabels i k) / (∑ i, cogR i c))) ∧
    (∀ c, (get_center_of_gravity_error cogR cogLabels).2.1 c = fun k =>
      (∑ i, cogR i c * get_label_center cogLabels i k) / (∑ i, cogR i c)) ∧
    (∀ c, ∃ jmin : Fin 1,
      (get_center_of_gravity_error cogR cogLabels).2.2 c = (jmin : ℕ) ∧
      ∀ j : Fin 1,
        vecNorm (fun k => weightedCog cogR cogLabels c k -
          get_label_center cogLabels jmin k) ≤
        vecNorm (fun k => weightedCog cogR cogLabels c k -
          get_label_center cogLabels j k))) :=
  ⟨by intro c; simp [cogR],
   c7_get_center_of_gravity_error cogR cogLabels
     (by intro c; simp [cogR])⟩

/-! ## `get_r_master` (C1, C4)

`get_r_master` (lines 924-1026) schedules `get_R` over SNR groups and
activation-label chunks and assembles the resolution tensors.  `get_R` is
modelled by an abstract chunk-level function `G : ℚ → List L → List Col`:
`G SNR chunk` is the columnwise result of one `get_R` invocation on the
activation-label list `chunk` at that SNR — nothing is assumed about how
the columns depend on the chunk (in particular, `ave_scale` on
lines 466-477 averages signal powers over the whole `activation_labels`
argument, so every column depends on the entire chunk).  `Col` abstracts
one column of the `(n_labels, ...)` tensor (`Fin n_labels → ℚ`) resp. of
the `(n_vertices, ...)` tensor (`Fin n_vertices → ℚ`); a tensor is the
list of its `len(SNRs)` slices, each the list of its columns. -/

/-- numpy `np.mod` (line 979): `np.mod(a, 0)` is 0, unlike Lean's `a % 0 = a`. -/
def npMod (a b : ℕ) : ℕ := if b = 0 then 0 else a % b

/-- `SNR_njobs` (lines 969-974). -/
def SNR_njobs (nJobs nS : ℕ) : ℕ := if nJobs < 2 * nS then nJobs else nS

/-- `activation_jobs` (lines 969-974); `np.floor_divide(a, 0) = 0` agrees
with Lean's `a / 0 = 0`. -/
def activation_jobs (nJobs nS : ℕ) : ℕ := if nJobs < 2 * nS then 1 else nJobs / nS

/-- The part sizes of `np.array_split` of an `n`-element array into `k`
parts: the first `n % k` parts have `n / k + 1` elements, the rest
`n / k`. -/
def splitSizes (n k : ℕ) : List ℕ :=
  (List.range k).map (fun i => if i < n % k then n / k + 1 else n / k)

/-- `np.array_split(np.array(activation_labels), activation_jobs)`
(lines 1002-1003). -/
def arraySplit {α : Type*} (l : List α) (k : ℕ) : List (List α) :=
  takeChunks (splitSizes l.length k) l

/-- `SNR_iterations` (lines 978-987): `iterations` slices of `SNR_njobs`
consecutive SNRs, plus the remainder slice when the division is uneven. -/
def snrGroups (SNRs : List ℚ) (snrN : ℕ) : List (List ℚ) :=
  let iters := SNRs.length / snrN
  let main := (List.range iters).map (fun it => (SNRs.drop (it * snrN)).take snrN)
  if npMod SNRs.length snrN = 0 then main else main ++ [SNRs.drop (snrN * iters)]

/-- `out` (lines 1004-1011): the parallel `get_R` results in the order of
`inp_group` (`for SNR in SNR_group: for k in range(activation_jobs)`);
each entry is `G SNR chunk`, the columnwise result of one `get_R` call on
its chunk. -/
def parallelOut {L Col : Type} (G : ℚ → List L → List Col) (grp : List ℚ)
    (chunks : List (List L)) : List (List Col) :=
  grp.flatMap (fun snr => chunks.map (fun ch => G snr ch))

/-- `R_emp` for the `c`-th SNR of the group (lines 1014-1018): the chunk
results `out[c*activation_jobs + d]` concatenated over `d`. -/
def sliceFor {Col : Type} (out : List (List Col)) (aJobs c nChunks : ℕ) :
    List Col :=
  ((List.range nChunks).map (fun d => out.getD (c * aJobs + d) [])).flatten

/-- The writes `r_tensor[:, :, c + group_count*len(SNR_group)] = R_emp`
for one SNR group (lines 1013-1020), acting on the list of the `len(SNRs)`
slices of the tensor. -/
def writeGroup {L Col : Type} (G : ℚ → List L → List Col)
    (chunks : List (List L)) (aJobs : ℕ) (t : List (List Col)) (gi : ℕ)
    (grp : List ℚ) : List (List Col) :=
  (List.range grp.length).foldl
    (fun acc c => acc.set (c + gi * grp.length)
      (sliceFor (parallelOut G grp chunks) aJobs c chunks.length)) t

/-- `activation_labels` defaulting to `labels` when `None`
(lines 990-996). -/
def actsOf {L : Type} (labels : List L) (actOpt : Option (List L)) : List L :=
  actOpt.getD labels

/-- The tensor for one inverse method (lines 991-1020): `np.zeros` of
`len(SNRs)` slices of `len(acts)` columns, written group by group, for the
chunk-level model `G` of `get_R`. -/
def rTensorChunked {L Col : Type} [Zero Col] (G : ℚ → List L → List Col)
    (SNRs : List ℚ) (acts : List L) (nJobs : ℕ) : List (List Col) :=
  let snrN := SNR_njobs nJobs SNRs.length
  let aJobs := activation_jobs nJobs SNRs.length
  let chunks := arraySplit acts aJobs
  ((snrGroups SNRs snrN).enum).foldl
    (fun t p => writeGroup G chunks aJobs t p.1 p.2)
    (List.replicate SNRs.length (List.replicate acts.length (0 : Col)))

/-- The tensor when `get_R` is modelled per label (`g snr l` the column
for activation label `l`).  This special case of `rTensorChunked` is an
exact model of a run precisely when `activation_jobs = 1`, i.e. when every
`get_R` call receives the full activation-label list as its single chunk
(`ave_scale`, lines 466-477, is then computed over the same list as in a
sequential run); it is used below for the concrete evaluation of the C4
failing input, where `activation_jobs = 1` holds. -/
def rTensor {L Col : Type} [Zero Col] (g : ℚ → L → Col) (SNRs : List ℚ)
    (acts : List L) (nJobs : ℕ) : List (List Col) :=
  rTensorChunked (fun snr ch => ch.map (g snr)) SNRs acts nJobs

/-- The returned `r_master` dictionary: one tensor per inverse method
(lines 989, 1021-1022) and the `'SNRs'` entry (line 1025), modelled as a
separate field since its value has a different type. -/
structure RMaster (Col : Type) : Type where
  methods : List (String × List (List Col))
  snrs : List ℚ

/-- `get_r_master` (lines 924-1026), for the abstract chunk-level model
`G` of `get_R` (indexed first by the inverse method).  Instantiating `Col`
with `Fin n_labels → ℚ` gives `r_master`, with `Fin n_vertices → ℚ` gives
`r_master_vl`; the scheduling is identical (lines 1013-1022). -/
def get_r_master {L Col : Type} [Zero Col] (G : String → ℚ → List L → List Col)
    (SNRs : List ℚ) (labels : List L) (actOpt : Option (List L))
    (invMethods : List String) (nJobs : ℕ) : RMaster Col :=
  { methods := invMethods.map
      (fun m => (m, rTensorChunked (G m) SNRs (actsOf labels actOpt) nJobs))
  , snrs := SNRs }

theorem takeChunks_length {α : Type*} :
    ∀ (ss : List ℕ) (xs : List α), (takeChunks ss xs).length = ss.length := by
  intro ss
  induction ss with
  | nil => intro xs; rfl
  | cons s ss ih => intro xs; simp [takeChunks, ih]

theorem takeChunks_flatten_take {α : Type*} :
    ∀ (ss : List ℕ) (xs : List α),
      (takeChunks ss xs).flatten = xs.take ss.sum := by
  intro ss
  induction ss with
  | nil => intro xs; simp [takeChunks]
  | cons s ss ih =>
    intro xs
    simp only [takeChunks, List.flatten_cons, ih, List.sum_cons]
    rw [List.take_add]

theorem range_map_ite_sum (q : ℕ) :
    ∀ (k r : ℕ),
      (((List.range k).map (fun i => if i < r then q + 1 else q)).sum) =
        k * q + min r k := by
  intro k
  induction k with
  | zero => intro r; simp
  | succ k ih =>
    intro r
    rw [List.range_succ, List.map_append, List.sum_append]
    simp only [List.map_cons, List.map_nil, List.sum_cons, List.sum_nil, ih]
    by_cases h : k < r
    · rw [if_pos h]
      have h1 : min r k = k := by omega
      have h2 : min r (k + 1) = k + 1 := by omega
      rw [h1, h2]
      ring_nf
    · rw [if_neg h]
      have h1 : min r k = r := by omega
      have h2 : min r (k + 1) = r := by omega
      rw [h1, h2]
      ring_nf

theorem splitSizes_sum (n k : ℕ) (hk : 1 ≤ k) : (splitSizes n k).sum = n := by
  unfold splitSizes
  rw [range_map_ite_sum]
  have hlt : n % k < k := Nat.mod_lt n (by omega)
  have : min (n % k) k = n % k := by omega
  rw [this]
  have := Nat.div_add_mod n k
  omega

theorem arraySplit_length {α : Type*} (l : List α) (k : ℕ) :
    (arraySplit l k).length = k := by
  unfold arraySplit
  rw [takeChunks_length]
  simp [splitSizes]

theorem arraySplit_flatten {α : Type*} (l : List α) (k : ℕ) (hk : 1 ≤ k) :
    (arraySplit l k).flatten = l := by
  unfold arraySplit
  rw [takeChunks_flatten_take, splitSizes_sum _ _ hk, List.take_length]

theorem flatMap_getD_uniform {α β : Type*} (f : α → List β) (k : ℕ)
    (hk : ∀ x, (f x).length = k) (dflt : β) :
    ∀ (l : List α) (c d : ℕ), (hc : c < l.length) → d < k →
      (l.flatMap f).getD (c * k + d) dflt = (f l[c]).getD d dflt := by
  intro l
  induction l with
  | nil => intro c d hc _; exact absurd hc (by simp)
  | cons x xs ih =>
    intro c d hc hd
    rw [List.flatMap_cons]
    match c with
    | 0 =>
      simp only [Nat.zero_mul, Nat.zero_add]
      rw [List.getD_append _ _ _ d (by rw [hk x]; exact hd)]
      simp
    | c' + 1 =>
      have hx : (f x).length ≤ (c' + 1) * k + d := by
        rw [hk x]
        have : k ≤ (c' + 1) * k := Nat.le_mul_of_pos_left k (by omega)
        omega
      rw [List.getD_append_right _ _ _ _ hx]
      have harith : (c' + 1) * k + d - (f x).length = c' * k + d := by
        rw [hk x]
        ring_nf
        omega
      rw [harith]
      have hc' : c' < xs.length := by simpa using hc
      rw [ih c' d hc' hd]
      simp

theorem sliceFor_eq {L Col : Type} (G : ℚ → List L → List Col)
    (chunks : List (List L)) (aJobs : ℕ) (hclen : chunks.length = aJobs)
    (grp : List ℚ) (c : ℕ) (hc : c < grp.length) :
    sliceFor (parallelOut G grp chunks) aJobs c chunks.length =
      (chunks.map (G (grp.getD c 0))).flatten := by
  have hblock : ∀ snr : ℚ,
      ((fun snr => chunks.map (fun ch => G snr ch)) snr).length = aJobs := by
    intro snr
    simp [hclen]
  have hout : ∀ d, d < aJobs →
      (parallelOut G grp chunks).getD (c * aJobs + d) [] =
        (chunks.map (fun ch => G grp[c] ch)).getD d [] := by
    intro d hd
    unfold parallelOut
    rw [flatMap_getD_uniform _ aJobs hblock [] grp c d hc hd]
  have hmapeq : (List.range chunks.length).map
      (fun d => (parallelOut G grp chunks).getD (c * aJobs + d) []) =
      chunks.map (fun ch => G grp[c] ch) := by
    apply List.ext_getElem
    · simp
    · intro d h1 h2
      rw [List.getElem_map, List.getElem_range]
      have hd : d < aJobs := by
        rw [← hclen]
        simpa using h1
      rw [hout d hd, List.getD_eq_getElem _ _ (by simpa using h2)]
  unfold sliceFor
  rw [hmapeq]
  congr 2
  rw [List.getD_eq_getElem _ _ hc]

theorem foldl_set_range {α : Type*} (f : ℕ → α) :
    ∀ (m : ℕ) (t : List α) (base : ℕ), base + m ≤ t.length →
      (List.range m).foldl (fun acc c => acc.set (c + base) (f c)) t =
        t.take base ++ (List.range m).map f ++ t.drop (base + m) := by
  intro m
  induction m with
  | zero =>
    intro t base h
    simp
  | succ m ih =>
    intro t base h
    rw [List.range_succ, List.foldl_append]
    rw [ih t base (by omega)]
    simp only [List.foldl_cons, List.foldl_nil, List.map_append, List.map_cons,
      List.map_nil]
    have hbase : base ≤ t.length := by omega
    have htake : (t.take base).length = base := by
      rw [List.length_take]
      omega
    have hmaplen : ((List.range m).map f).length = m := by simp
    rw [List.set_append]
    rw [if_neg (by rw [List.length_append, htake, hmaplen]; omega)]
    have hidx : m + base - (t.take base ++ (List.range m).map f).length = 0 := by
      rw [List.length_append, htake, hmaplen]
      omega
    rw [hidx]
    rw [List.drop_eq_getElem_cons (show base + m < t.length by omega)]
    rw [List.set_cons_zero]
    simp only [List.append_assoc, List.cons_append, List.singleton_append,
      List.nil_append]
    rw [Nat.add_assoc]

theorem writeGroup_eq {L Col : Type} (G : ℚ → List L → List Col)
    (acts : List L) (aJobs : ℕ) (t : List (List Col)) (gi : ℕ)
    (grp : List ℚ) (hfit : gi * grp.length + grp.length ≤ t.length) :
    writeGroup G (arraySplit acts aJobs) aJobs t gi grp =
      t.take (gi * grp.length) ++
        grp.map (fun snr => ((arraySplit acts aJobs).map (G snr)).flatten) ++
        t.drop (gi * grp.length + grp.length) := by
  unfold writeGroup
  rw [foldl_set_range _ grp.length t (gi * grp.length) hfit]
  congr 1
  congr 1
  apply List.ext_getElem
  · simp
  · intro c h1 h2
    rw [List.getElem_map, List.getElem_range, List.getElem_map]
    have hc : c < grp.length := by simpa using h2
    rw [sliceFor_eq G (arraySplit acts aJobs) aJobs
      (arraySplit_length acts aJobs) grp c hc]
    rw [List.getD_eq_getElem _ _ hc]

theorem foldl_writeGroups {L Col : Type} (G : ℚ → List L → List Col)
    (acts : List L) (aJobs : ℕ) (snrN : ℕ) :
    ∀ (gs : List (List ℚ)) (j : ℕ) (t : List (List Col)),
      (∀ grp ∈ gs, grp.length = snrN) →
      j * snrN + gs.length * snrN ≤ t.length →
      (List.enumFrom j gs).foldl
          (fun t p => writeGroup G (arraySplit acts aJobs) aJobs t p.1 p.2) t =
        t.take (j * snrN) ++
          gs.flatMap (fun grp => grp.map
            (fun snr => ((arraySplit acts aJobs).map (G snr)).flatten)) ++
          t.drop (j * snrN + gs.length * snrN) := by
  intro gs
  induction gs with
  | nil =>
    intro j t _ _
    simp
  | cons grp gs ih =>
    intro j t hlen hfit
    have hgrp : grp.length = snrN := hlen grp (by simp)
    rw [List.length_cons, Nat.succ_mul] at hfit
    rw [List.enumFrom_cons, List.foldl_cons]
    have hfit1 : j * grp.length + grp.length ≤ t.length := by
      rw [hgrp]
      omega
    rw [writeGroup_eq G acts aJobs t j grp hfit1]
    set vs := grp.map
      (fun snr => ((arraySplit acts aJobs).map (G snr)).flatten) with hvs
    have hvslen : vs.length = snrN := by
      rw [hvs, List.length_map, hgrp]
    have htakelen : (t.take (j * grp.length)).length = j * grp.length := by
      rw [List.length_take]
      omega
    set A := t.take (j * grp.length) with hA
    set C := t.drop (j * grp.length + grp.length) with hC
    have hClen : C.length = t.length - (j * snrN + snrN) := by
      rw [hC, List.length_drop, hgrp]
    have ht1len : (A ++ vs ++ C).length = t.length := by
      rw [List.length_append, List.length_append, htakelen, hvslen, hClen, hgrp]
      omega
    have hfit2 : (j + 1) * snrN + gs.length * snrN ≤ (A ++ vs ++ C).length := by
      rw [ht1len, Nat.succ_mul]
      omega
    rw [ih (j + 1) (A ++ vs ++ C) (fun grp' h' => hlen grp' (by simp [h'])) hfit2]
    have htake1 : (A ++ vs ++ C).take ((j + 1) * snrN) = A ++ vs := by
      rw [List.append_assoc]
      have : (j + 1) * snrN = A.length + snrN := by
        rw [htakelen, hgrp]
        ring
      rw [this, List.take_append]
      congr 1
      rw [← hvslen]
      exact List.take_left vs C
    have hdrop1 : (A ++ vs ++ C).drop ((j + 1) * snrN + gs.length * snrN) =
        t.drop (j * snrN + (gs.length * snrN + snrN)) := by
      have hABlen : (A ++ vs).length = (j + 1) * snrN := by
        rw [List.length_append, htakelen, hvslen, hgrp]
        ring
      have : (j + 1) * snrN + gs.length * snrN =
          (A ++ vs).length + gs.length * snrN := by rw [hABlen]
      rw [this, List.drop_append, hC, List.drop_drop, hgrp]
      congr 1
      omega
    rw [htake1, hdrop1, List.flatMap_cons, List.length_cons, Nat.succ_mul, hA, hgrp]
    simp only [List.append_assoc, hvs]

theorem snrGroups_mem_length (SNRs : List ℚ) (snrN : ℕ) (hsn : 1 ≤ snrN)
    (hdiv : SNRs.length % snrN = 0) :
    ∀ grp ∈ snrGroups SNRs snrN, grp.length = snrN := by
  intro grp hmem
  unfold snrGroups at hmem
  rw [if_pos (by simp [npMod, hdiv])] at hmem
  rcases List.mem_map.mp hmem with ⟨it, hit, rfl⟩
  rw [List.mem_range] at hit
  rw [List.length_take, List.length_drop]
  have hmul : (it + 1) * snrN ≤ SNRs.length := by
    have : it + 1 ≤ SNRs.length / snrN := hit
    calc (it + 1) * snrN ≤ (SNRs.length / snrN) * snrN :=
          Nat.mul_le_mul_right snrN this
      _ ≤ SNRs.length := Nat.div_mul_le_self _ _
  rw [Nat.succ_mul] at hmul
  omega

theorem snrGroups_flatten (SNRs : List ℚ) (snrN : ℕ) (hsn : 1 ≤ snrN)
    (hdiv : SNRs.length % snrN = 0) :
    (snrGroups SNRs snrN).flatten = SNRs := by
  unfold snrGroups
  rw [if_pos (by simp [npMod, hdiv])]
  have hgen : ∀ (m : ℕ),
      ((List.range m).map (fun it => (SNRs.drop (it * snrN)).take snrN)).flatten =
        SNRs.take (m * snrN) := by
    intro m
    induction m with
    | zero => simp
    | succ m ihm =>
      rw [List.range_succ, List.map_append, List.flatten_append, ihm]
      simp only [List.map_cons, List.map_nil, List.flatten_cons, List.flatten_nil,
        List.append_nil]
      rw [Nat.succ_mul, List.take_add]
  rw [hgen]
  have hmul : SNRs.length / snrN * snrN = SNRs.length := by
    rw [Nat.mul_comm]
    have h1 := Nat.div_add_mod SNRs.length snrN
    omega
  rw [hmul, List.take_length]

theorem SNR_njobs_pos (nJobs nS : ℕ) (hj : 1 ≤ nJobs) (hs : 1 ≤ nS) :
    1 ≤ SNR_njobs nJobs nS := by
  unfold SNR_njobs
  by_cases h : nJobs < 2 * nS
  · simpa [h] using hj
  · rw [if_neg h]
    exact hs

theorem activation_jobs_pos (nJobs nS : ℕ) (hj : 1 ≤ nJobs) (hs : 1 ≤ nS) :
    1 ≤ activation_jobs nJobs nS := by
  unfold activation_jobs
  by_cases h : nJobs < 2 * nS
  · simp [h]
  · rw [if_neg h]
    rw [Nat.one_le_div_iff hs]
    omega

/-- The scheduling of `get_r_master` characterized for even SNR splits
(or a single shorter group): the tensor slice for each SNR is the
concatenation, in order, of the `get_R` chunk results over the activation
chunks.  Nothing is assumed about how `get_R`'s columns depend on the
chunk. -/
theorem rTensorChunked_eq {L Col : Type} [Zero Col]
    (G : ℚ → List L → List Col) (SNRs : List ℚ) (acts : List L) (nJobs : ℕ)
    (hjobs : 1 ≤ nJobs)
    (hdiv : SNRs.length % SNR_njobs nJobs SNRs.length = 0 ∨
      SNRs.length < SNR_njobs nJobs SNRs.length) :
    rTensorChunked G SNRs acts nJobs =
      SNRs.map (fun snr =>
        ((arraySplit acts (activation_jobs nJobs SNRs.length)).map
          (G snr)).flatten) := by
  rcases Nat.eq_zero_or_pos SNRs.length with hlen0 | hpos
  · have hnil : SNRs = [] := List.length_eq_zero.mp hlen0
    subst hnil
    unfold rTensorChunked snrGroups npMod SNR_njobs
    simp
  · have hsn : 1 ≤ SNR_njobs nJobs SNRs.length := SNR_njobs_pos _ _ hjobs hpos
    set snrN := SNR_njobs nJobs SNRs.length with hsnrN
    set aJobs := activation_jobs nJobs SNRs.length with haJobs
    rcases hdiv with hrem | hbig
    · -- even split: all groups have length snrN
      have hmemlen := snrGroups_mem_length SNRs snrN hsn hrem
      have hglen : (snrGroups SNRs snrN).length = SNRs.length / snrN := by
        unfold snrGroups
        rw [if_pos (by simp [npMod, hrem])]
        simp
      have hiters : SNRs.length / snrN * snrN = SNRs.length := by
        rw [Nat.mul_comm]
        have h1 := Nat.div_add_mod SNRs.length snrN
        omega
      unfold rTensorChunked
      dsimp only
      rw [← hsnrN, ← haJobs, List.enum_eq_enumFrom]
      rw [foldl_writeGroups G acts aJobs snrN (snrGroups SNRs snrN) 0
        (List.replicate SNRs.length (List.replicate acts.length 0)) hmemlen
        (by rw [List.length_replicate, hglen, Nat.zero_mul, Nat.zero_add, hiters])]
      rw [Nat.zero_mul, List.take_zero, Nat.zero_add, hglen, hiters]
      rw [List.drop_eq_nil_of_le (by simp)]
      rw [List.nil_append, List.append_nil]
      rw [List.flatMap_def, ← List.map_flatten, snrGroups_flatten SNRs snrN hsn hrem]
    · -- single short group: snrGroups = [SNRs]
      have hone : snrGroups SNRs snrN = [SNRs] := by
        unfold snrGroups
        have hit : SNRs.length / snrN = 0 := Nat.div_eq_of_lt hbig
        have hmod : npMod SNRs.length snrN = SNRs.length := by
          unfold npMod
          rw [if_neg (by omega), Nat.mod_eq_of_lt hbig]
        rw [hit, hmod]
        rw [if_neg (by omega)]
        simp
      unfold rTensorChunked
      dsimp only
      rw [← hsnrN, ← haJobs, hone, List.enum_eq_enumFrom]
      rw [foldl_writeGroups G acts aJobs SNRs.length [SNRs] 0
        (List.replicate SNRs.length (List.replicate acts.length 0))
        (by intro grp h; simp at h; rw [h])
        (by rw [List.length_replicate]; simp)]
      rw [Nat.zero_mul, List.take_zero, List.length_singleton, Nat.one_mul,
        Nat.zero_add]
      rw [List.drop_eq_nil_of_le (by simp)]
      rw [List.nil_append, List.append_nil]
      simp

theorem arraySplit_one {α : Type*} (l : List α) : arraySplit l 1 = [l] := by
  unfold arraySplit splitSizes
  have h1 : (List.range 1).map
      (fun i => if i < l.length % 1 then l.length / 1 + 1 else l.length / 1) =
      [l.length] := by
    have h0 : List.range 1 = [0] := rfl
    rw [h0]
    simp [Nat.mod_one, Nat.div_one]
  rw [h1]
  simp [takeChunks, List.take_length]

/-- C1 (amended): for `1 ≤ n_jobs < 2*len(SNRs)` — so that
`activation_jobs = 1` and every `get_R` call receives the full
activation-label list as its single chunk, exactly as a sequential run
would (in particular for the default `n_jobs = 1`) — and with
`SNR_njobs = n_jobs` dividing or exceeding `len(SNRs)`, `get_r_master`
returns for every inverse method the tensor whose slice `s` is the
`get_R` result at `SNRs[s]` on the full activation-label list (defaulting
to `labels` when `None`): `len(SNRs)` slices of `len(activation_labels)`
columns; and `r_master['SNRs'] = SNRs`.  `Col` instantiates to
`Fin n_labels → ℚ` for `r_master` and to `Fin n_vertices → ℚ` for
`r_master_vl`; `hshape` records that `get_R` returns one column per
activation label (line 445). -/
theorem c1_get_r_master {L Col : Type} [Zero Col]
    (G : String → ℚ → List L → List Col)
    (SNRs : List ℚ) (labels : List L) (actOpt : Option (List L))
    (invMethods : List String) (nJobs : ℕ)
    (hjobs : 1 ≤ nJobs) (hsmall : nJobs < 2 * SNRs.length)
    (hdiv : SNRs.length % SNR_njobs nJobs SNRs.length = 0 ∨
      SNRs.length < SNR_njobs nJobs SNRs.length)
    (hshape : ∀ (m : String) (snr : ℚ),
      (G m snr (actsOf labels actOpt)).length = (actsOf labels actOpt).length) :
    get_r_master G SNRs labels actOpt invMethods nJobs =
      { methods := invMethods.map (fun m =>
          (m, SNRs.map (fun snr => G m snr (actsOf labels actOpt))))
      , snrs := SNRs } ∧
    ∀ p ∈ (get_r_master G SNRs labels actOpt invMethods nJobs).methods,
      p.2.length = SNRs.length ∧
      ∀ slice ∈ p.2, slice.length = (actsOf labels actOpt).length := by
  have haj1 : activation_jobs nJobs SNRs.length = 1 := by
    unfold activation_jobs
    rw [if_pos hsmall]
  have htens : ∀ m : String,
      rTensorChunked (G m) SNRs (actsOf labels actOpt) nJobs =
        SNRs.map (fun snr => G m snr (actsOf labels actOpt)) := by
    intro m
    rw [rTensorChunked_eq (G m) SNRs (actsOf labels actOpt) nJobs hjobs hdiv,
      haj1, arraySplit_one]
    simp
  have heq : get_r_master G SNRs labels actOpt invMethods nJobs =
      { methods := invMethods.map (fun m =>
          (m, SNRs.map (fun snr => G m snr (actsOf labels actOpt))))
      , snrs := SNRs } := by
    unfold get_r_master
    congr 1
    apply List.map_congr_left
    intro m _
    rw [htens m]
  refine ⟨heq, ?_⟩
  intro p hp
  rw [heq] at hp
  rcases List.mem_map.mp hp with ⟨m, hm, rfl⟩
  refine ⟨by simp, ?_⟩
  intro slice hs
  rcases List.mem_map.mp hs with ⟨snr, hsnr, rfl⟩
  exact hshape m snr

/-- Witness for C1 at `SNRs = [5, 7]`, one label, `n_jobs = 1`. -/
theorem c1_witness :
    ((1 : ℕ) ≤ 1 ∧ 1 < 2 * [(5 : ℚ), 7].length ∧
      ([(5 : ℚ), 7].length % SNR_njobs 1 [(5 : ℚ), 7].length = 0 ∨
        [(5 : ℚ), 7].length < SNR_njobs 1 [(5 : ℚ), 7].length) ∧
      (∀ (m : String) (snr : ℚ),
        ((fun (_ : String) (snr : ℚ) (_ : List Unit) => [snr]) m snr
            (actsOf [()] none)).length = (actsOf [()] none).length)) ∧
    (@get_r_master Unit ℚ _ (fun _ snr _ => [snr]) [5, 7] [()] none ["MNE"] 1 =
      { methods := ["MNE"].map (fun m =>
          (m, [(5 : ℚ), 7].map (fun snr =>
            (fun (_ : String) (snr : ℚ) (_ : List Unit) => [snr]) m snr
              (actsOf [()] none))))
      , snrs := [5, 7] } ∧
     ∀ p ∈ (@get_r_master Unit ℚ _ (fun _ snr _ => [snr])
         [5, 7] [()] none ["MNE"] 1).methods,
       p.2.length = [(5 : ℚ), 7].length ∧
       ∀ slice ∈ p.2, slice.length = (actsOf [()] none).length) :=
  ⟨⟨le_refl 1, by norm_num, Or.inl rfl, fun m snr => rfl⟩,
   c1_get_r_master (fun _ snr _ => [snr]) [5, 7] [()] none ["MNE"] 1
     (le_refl 1) (by norm_num) (Or.inl rfl) (fun m snr => rfl)⟩

/-- Counterexample for C1 as stated (without the even-split proviso): with
`SNRs = [0, 1, 2]` and `n_jobs = 2` the claimed tensor (slice `s` holding
the `get_R` result at `SNRs[s]` on the full activation-label list) is not
what `get_r_master` returns: the remainder group is written to slice 1
instead of slice 2 (index `c + group_count*len(SNR_group)` with the
shorter last group), so slice 2 keeps its zeros.  At this input
`activation_jobs = 1`, so the chunk-level model coincides with a real
run. -/
theorem c1_counterexample :
    @get_r_master Unit ℚ _ (fun _ _ ch => ch.map (fun _ => 1))
        [0, 1, 2] [()] none ["MNE"] 2 ≠
      { methods := ["MNE"].map (fun m =>
          (m, [(0 : ℚ), 1, 2].map (fun snr =>
            (fun (_ : String) (_ : ℚ) (ch : List Unit) =>
              ch.map (fun _ => (1 : ℚ))) m snr (actsOf [()] none))))
      , snrs := [0, 1, 2] } := by
  intro h
  have e1 : @get_r_master Unit ℚ _ (fun _ _ ch => ch.map (fun _ => 1))
      [0, 1, 2] [()] none ["MNE"] 2 =
      { methods := [("MNE", [[1], [1], [0]])], snrs := [0, 1, 2] } := rfl
  rw [e1] at h
  simp [RMaster.mk.injEq, actsOf] at h

/-- C4 / the indexing slip at line 1019 evaluated at the failing input:
with `SNRs = [0, 1, 2]`, one activation label and `n_jobs = 2` the written
tensor has slices `[[1], [1], [0]]` — the remainder group's result
overwrote slice 1 and slice 2 stayed zero — while the sequential evaluation
of `get_R` over all SNRs gives `[[1], [1], [1]]`. -/
theorem c4_uneven_split_misindexes :
    @rTensor Unit ℚ _ (fun _ _ => 1) [0, 1, 2] [()] 2 =
      [[1], [1], [0]] ∧
    [(0 : ℚ), 1, 2].map (fun snr => [()].map ((fun _ _ => 1 : ℚ → Unit → ℚ) snr)) =
      [[1], [1], [1]] :=
  ⟨rfl, rfl⟩

end Evaler
